import Mathlib

/-!
Shallow embedding of `sphinx_gallery/recommender.py` (class
`ExampleRecommender` and the helper it exposes), together with theorems
checking the specification's claims about tokenization, sparse
vectorization, TF-IDF weighting, cosine similarity, and the ranking done
by `predict`.  Floating point numbers are modelled by the reals (with an
explicit `Option` marker where an IEEE NaN is produced), Python integers
by `Int`/`Nat`, Python dicts by insertion-ordered association lists.
-/

namespace ExampleRecommender

/-- A character matched by the regular-expression class `\w` in the ASCII
range: letters, digits and the underscore. -/
def isWordChar (c : Char) : Bool := c.isAlphanum || c = '_'

/-- Scanner for `re.findall(r"\w+", doc)`: collects the maximal runs of
word characters, in order of appearance.  `acc` holds the current run,
reversed. -/
def findallAux : List Char → List Char → List String
  | acc, [] => if acc.isEmpty then [] else [String.mk acc.reverse]
  | acc, c :: cs =>
    if isWordChar c then findallAux (c :: acc) cs
    else if acc.isEmpty then findallAux [] cs
    else String.mk acc.reverse :: findallAux [] cs

/-- Result of `re.findall(r"\w+", doc)`: the maximal runs of `\w` characters. -/
def findallWord (doc : String) : List String := findallAux [] doc.data

/-- ASCII case folding, `tok.lower()`. -/
def strLower (s : String) : String := s.map Char.toLower

/-- One `freq[tok] += 1` step on a Python `defaultdict(int)`, modelled as
an insertion-ordered association list: an existing key is incremented in
place, a fresh key is appended with count 1. -/
def bumpCount : List (String × Nat) → String → List (String × Nat)
  | [], tok => [(tok, 1)]
  | (k, v) :: rest, tok =>
    if k = tok then (k, v + 1) :: rest else (k, v) :: bumpCount rest tok

/-- Model of `ExampleRecommender.dict_freqs`: fold a token sequence into a mapping
from token to occurrence count. -/
def dict_freqs (doc : List String) : List (String × Nat) := doc.foldl bumpCount []

/-- The names bound at module level in `recommender.py` (imports and
top-level definitions).  The bare name `dict_freqs` used inside
`token_freqs` is looked up in the local scope (which only binds `doc` and
`token_generator`), then here, then in the builtins; a staticmethod body
has no enclosing function scope and the class body is not a scope for
name resolution. -/
def moduleGlobals : List String :=
  ["numbers", "re", "defaultdict", "Path", "np", "sparse", "norm",
   "_thumbnail_div", "THUMBNAIL_PARENT_DIV", "THUMBNAIL_PARENT_DIV_CLOSE",
   "split_code_and_text_blocks", "extract_intro_and_title",
   "ExampleRecommender", "_write_recommendations"]

/-- Model of `ExampleRecommender.token_freqs`: builds the generator of lowered
`\w+` tokens and then calls the bare name `dict_freqs` on it.  That name
is neither local, nor module-global, nor a builtin (it is only an
attribute of the class), so the call raises `NameError` at run time. -/
def token_freqs (doc : String) : Except String (List (String × Nat)) :=
  if "dict_freqs" ∈ moduleGlobals then
    Except.ok (dict_freqs ((findallWord doc).map strLower))
  else
    Except.error "NameError: name dict_freqs is not defined"

/-- A `scipy.sparse.csr_matrix` as the three parallel arrays the source
manipulates, plus the column count passed through `shape`.  The row count
is `len(indptr) - 1`, exactly as in the `shape=(len(indptr) - 1, ...)`
argument of the constructor call. -/
structure CSR (α : Type) where
  data : List α
  indices : List Nat
  indptr : List Nat
  ncols : Nat

def CSR.nrows (A : CSR α) : Nat := A.indptr.length - 1

/-- Python `sorted(set(feature_names))`: the distinct strings in ascending
lexicographic order. -/
def sortedSet (l : List String) : List String :=
  l.dedup.mergeSort (fun a b => decide (a ≤ b))

/-- Inner loop of `dict_vectorizer`: for one document, walk the
vocabulary in order and append `(value, column)` for each key present in
the document's mapping (`row[feature_name]` is the first — unique — value
stored under that key). -/
def vecRow (row : List (String × α)) (fns : List String)
    (acc : List α × List Nat) : List α × List Nat :=
  fns.enum.foldl
    (fun di p =>
      match row.find? (fun q => q.1 == p.2) with
      | some q => (di.1 ++ [q.2], di.2 ++ [p.1])
      | none => di)
    acc

/-- Outer loop of `dict_vectorizer`: after each document append
`len(indices)` to `indptr`. -/
def vecLoop (fns : List String) :
    List (List (String × α)) → List α × List Nat × List Nat →
      List α × List Nat × List Nat
  | [], acc => acc
  | row :: rest, (d, ind, ptr) =>
    let di := vecRow row fns (d, ind)
    vecLoop fns rest (di.1, di.2, ptr ++ [di.2.length])

/-- Model of `ExampleRecommender.dict_vectorizer`.  The statement
`data, indices, indptr = [], [], [0]` rebinds the name `data` — until then
the input parameter — to a fresh empty list, so the subsequent
`for row in data` loop iterates over that empty list and never visits the
input mappings.  The returned matrix therefore always has
`len(indptr) - 1 = 0` rows. -/
def dict_vectorizer (input : List (List (String × α))) : CSR α :=
  let feature_names := sortedSet (input.flatMap (fun row => row.map Prod.fst))
  let data : List (List (String × α)) := []
  let res := vecLoop feature_names data ([], [], [0])
  { data := res.1, indices := res.2.1, indptr := res.2.2,
    ncols := feature_names.length }

/-- C1: the claim states that `dict_vectorizer` returns a matrix of shape
`(number of documents, number of distinct keys)`.  It fails on the code:
because the loop variable `data` is shadowed by the empty list, the
one-document input `[{"a": 1}]` produces a matrix with 0 rows instead
of 1, contradicting the function's own docstring. -/
theorem dict_vectorizer_returns_no_rows :
    (dict_vectorizer [[("a", (1 : ℚ))]]).nrows = 0 ∧
      ([[("a", (1 : ℚ))]] : List (List (String × ℚ))).length = 1 :=
  ⟨rfl, rfl⟩

/-- C3: the claim states that `token_freqs` returns the mapping from each
lower-cased `\w+` run to its count and never fails.  It fails on the
code: the bare name `dict_freqs` is not in scope inside the staticmethod,
so every call raises `NameError` — here evaluated on the text
"cat dog dog". -/
theorem token_freqs_raises_name_error :
    token_freqs "cat dog dog" =
      Except.error "NameError: name dict_freqs is not defined" := rfl

/-- Dense entry `(i, j)` of a CSR matrix: the sum of the stored values at
positions `k` of row `i`'s slice `[indptr[i], indptr[i+1])` whose column
index is `j`.  In canonical form at most one such position exists. -/
noncomputable def CSR.entry (A : CSR ℝ) (i j : ℕ) : ℝ :=
  ∑ k ∈ Finset.Ico (A.indptr.getD i 0) (A.indptr.getD (i + 1) 0),
    if A.indices.getD k 0 = j then A.data.getD k 0 else 0

/-- Canonical-form invariants of a CSR matrix, as maintained by
`scipy.sparse.csr_matrix`: `indptr` starts at 0, has `nrows + 1`
non-decreasing entries and ends at the number of stored values; `indices`
is parallel to `data`, in range, and strictly increasing within each row
(no duplicate columns). -/
def CSR.Canonical (A : CSR ℝ) : Prop :=
  A.indptr.getD 0 0 = 0 ∧
  A.indptr.length = A.nrows + 1 ∧
  (∀ i, i < A.nrows → A.indptr.getD i 0 ≤ A.indptr.getD (i + 1) 0) ∧
  A.indptr.getD A.nrows 0 = A.data.length ∧
  A.indices.length = A.data.length ∧
  (∀ k, k < A.indices.length → A.indices.getD k 0 < A.ncols) ∧
  (∀ i, i < A.nrows → ∀ k2, k2 < A.indptr.getD (i + 1) 0 → ∀ k1, k1 < k2 →
    A.indptr.getD i 0 ≤ k1 → A.indices.getD k1 0 < A.indices.getD k2 0)

/-- Value of `np.bincount(X.indices, minlength=n_features)[j]`: the number of
stored entries whose column index is `j` — the document frequency of
feature `j`. -/
def df (A : CSR ℝ) (j : ℕ) : ℕ := A.indices.count j

/-- The weight `idf = np.log(n_samples / df) + 1` evaluated after the smoothing
steps `df += 1` and `n_samples += 1`. -/
noncomputable def idf (A : CSR ℝ) (j : ℕ) : ℝ :=
  Real.log (((A.nrows : ℝ) + 1) / ((df A j : ℝ) + 1)) + 1

/-- Entry `(k, j)` of `sparse.diags(idf, ...)`. -/
noncomputable def idf_diag (A : CSR ℝ) (k j : ℕ) : ℝ :=
  if k = j then idf A k else 0

/-- Entry `(i, j)` of `X * idf_diag`: the matrix product of the counts
matrix with the diagonal idf matrix. -/
noncomputable def scaled (A : CSR ℝ) (i j : ℕ) : ℝ :=
  ∑ k ∈ Finset.range A.ncols, A.entry i k * idf_diag A k j

/-- Value of `norm(X_tfidf, axis=1)[i]`: the Euclidean norm of row `i` of the
idf-scaled matrix. -/
noncomputable def rowNorm (A : CSR ℝ) (i : ℕ) : ℝ :=
  Real.sqrt (∑ j ∈ Finset.range A.ncols, scaled A i j ^ 2)

/-- Entry `(i, j)` of `ExampleRecommender.tfidf_transformer`:
`(X_tfidf.T / norm(X_tfidf, axis=1)).T` divides every entry of row `i` by
`rowNorm A i`, unconditionally.  When `rowNorm A i = 0` every entry of
the scaled row is 0 and the IEEE quotient `0.0 / 0.0` is NaN, modelled
here as `none` (Lean's real division would return 0 instead, which would
hide the NaN produced by the code). -/
noncomputable def tfidf_transformer (A : CSR ℝ) (i j : ℕ) : Option ℝ :=
  if rowNorm A i = 0 then none else some (scaled A i j / rowNorm A i)

/-- Row `i` of the CSR matrix has a stored entry in column `j`. -/
def rowHasCol (A : CSR ℝ) (i j : ℕ) : Prop :=
  ∃ k ∈ Finset.Ico (A.indptr.getD i 0) (A.indptr.getD (i + 1) 0),
    A.indices.getD k 0 = j

instance rowHasColDecidable (A : CSR ℝ) (i j : ℕ) :
    Decidable (rowHasCol A i j) :=
  Finset.decidableExistsAndFinset

/-- Entry `(i, j)` of a dense matrix given as a list of rows. -/
def mentry (X : List (List ℝ)) (i j : ℕ) : ℝ := (X.getD i []).getD j 0

/-- Frobenius norm `scipy.sparse.linalg.norm(X)`: called without an `axis` argument it
returns the Frobenius norm of the whole matrix — a scalar, not the vector
of row norms. -/
noncomputable def frobNorm (X : List (List ℝ)) : ℝ :=
  Real.sqrt (∑ i ∈ Finset.range X.length,
    ∑ j ∈ Finset.range (X.getD i []).length, mentry X i j ^ 2)

/-- Entry `(i, j)` of `ExampleRecommender.cosine_similarity(X, Y)`:
`X_normalized = X / norm(X)` divides the whole matrix by its scalar
Frobenius norm (`Y = X` when `Y` is `None`, reusing `X_normalized`), and
the result is `X_normalized @ Y_normalized.T`.  The inner dimension of
the product is the common feature count, read here from row `i` of `X`. -/
noncomputable def cosine_similarity (X : List (List ℝ))
    (Y? : Option (List (List ℝ))) (i j : ℕ) : ℝ :=
  let Xn : ℕ → ℕ → ℝ := fun r c => mentry X r c / frobNorm X
  let Yn : ℕ → ℕ → ℝ :=
    match Y? with
    | none => Xn
    | some Y => fun r c => mentry Y r c / frobNorm Y
  ∑ k ∈ Finset.range (X.getD i []).length, Xn i k * Yn j k

lemma chain_mono (p : ℕ → ℕ) (n : ℕ) (h : ∀ i, i < n → p i ≤ p (i + 1)) :
    ∀ a b, a ≤ b → b ≤ n → p a ≤ p b := by
  intro a b hab hbn
  induction b with
  | zero =>
    have : a = 0 := Nat.le_zero.mp hab
    simp [this]
  | succ b ih =>
    rcases Nat.lt_or_ge a (b + 1) with hlt | hge
    · exact (ih (Nat.lt_succ_iff.mp hlt) (Nat.le_of_succ_le hbn)).trans
        (h b (Nat.lt_of_lt_of_le (Nat.lt_succ_self b) hbn))
    · have : a = b + 1 := Nat.le_antisymm hab hge
      simp [this]

lemma sum_Ico_chain {M : Type} [AddCommMonoid M] (p : ℕ → ℕ) (f : ℕ → M) :
    ∀ n, (∀ i, i < n → p i ≤ p (i + 1)) →
      (∑ i ∈ Finset.range n, ∑ k ∈ Finset.Ico (p i) (p (i + 1)), f k) =
        ∑ k ∈ Finset.Ico (p 0) (p n), f k := by
  intro n
  induction n with
  | zero => simp
  | succ n ih =>
    intro h
    rw [Finset.sum_range_succ, ih (fun i hi => h i (Nat.lt_succ_of_lt hi)),
      Finset.sum_Ico_consecutive f
        (chain_mono p (n + 1) h 0 n (Nat.zero_le n) (Nat.le_succ n))
        (h n (Nat.lt_succ_self n))]

lemma count_eq_sum_getD (l : List ℕ) (j : ℕ) :
    l.count j = ∑ k ∈ Finset.range l.length, if l.getD k 0 = j then 1 else 0 := by
  induction l with
  | nil => simp
  | cons a l ih =>
    rw [List.count_cons, List.length_cons, Finset.sum_range_succ']
    simp only [List.getD_cons_succ, List.getD_cons_zero, beq_iff_eq, ← ih]

lemma row_indicator_sum (A : CSR ℝ) (hc : A.Canonical) (i j : ℕ)
    (hi : i < A.nrows) :
    (∑ k ∈ Finset.Ico (A.indptr.getD i 0) (A.indptr.getD (i + 1) 0),
        if A.indices.getD k 0 = j then 1 else 0) =
      if rowHasCol A i j then 1 else 0 := by
  obtain ⟨-, -, -, -, -, -, hinc⟩ := hc
  by_cases h : rowHasCol A i j
  · rw [if_pos h]
    obtain ⟨k0, hk0mem, hk0⟩ := h
    rw [Finset.sum_eq_single k0, if_pos hk0]
    · intro b hb hne
      rw [if_neg]
      intro hbj
      obtain ⟨hb1, hb2⟩ := Finset.mem_Ico.mp hb
      obtain ⟨hk01, hk02⟩ := Finset.mem_Ico.mp hk0mem
      rcases Nat.lt_or_ge b k0 with hlt | hge
      · exact absurd (hbj.trans hk0.symm)
          (Nat.ne_of_lt (hinc i hi k0 hk02 b hlt hb1))
      · exact absurd (hk0.trans hbj.symm)
          (Nat.ne_of_lt (hinc i hi b hb2 k0
            (Nat.lt_of_le_of_ne hge (Ne.symm hne)) hk01))
    · intro hk0no
      exact absurd hk0mem hk0no
  · rw [if_neg h, Finset.sum_eq_zero]
    intro k hk
    rw [if_neg]
    intro hkj
    exact h ⟨k, hk, hkj⟩

lemma df_eq_card_rows (A : CSR ℝ) (hc : A.Canonical) (j : ℕ) :
    df A j = ((Finset.range A.nrows).filter (fun i => rowHasCol A i j)).card := by
  have h0 := hc.1
  have hmono := hc.2.2.1
  have hlast := hc.2.2.2.1
  have hil := hc.2.2.2.2.1
  rw [df, count_eq_sum_getD, hil, Finset.card_filter]
  have hrange : Finset.range A.data.length =
      Finset.Ico (A.indptr.getD 0 0) (A.indptr.getD A.nrows 0) := by
    rw [h0, hlast, Finset.range_eq_Ico]
  rw [hrange, ← sum_Ico_chain (fun i => A.indptr.getD i 0)
    (fun k => if A.indices.getD k 0 = j then 1 else 0) A.nrows hmono]
  exact Finset.sum_congr rfl
    (fun i hi => row_indicator_sum A hc i j (Finset.mem_range.mp hi))

lemma entry_ne_zero_iff (A : CSR ℝ) (hc : A.Canonical)
    (hd : ∀ v ∈ A.data, v ≠ 0) (i j : ℕ) (hi : i < A.nrows) :
    A.entry i j ≠ 0 ↔ rowHasCol A i j := by
  constructor
  · intro hne
    by_contra h
    apply hne
    rw [CSR.entry, Finset.sum_eq_zero]
    intro k hk
    rw [if_neg]
    intro hkj
    exact h ⟨k, hk, hkj⟩
  · intro h
    obtain ⟨hp0, hplen, hmono, hlast, hil, -, hinc⟩ := hc
    obtain ⟨k0, hk0mem, hk0⟩ := h
    have hentry : A.entry i j = A.data.getD k0 0 := by
      rw [CSR.entry, Finset.sum_eq_single k0]
      · rw [if_pos hk0]
      · intro b hb hne
        rw [if_neg]
        intro hbj
        obtain ⟨hb1, hb2⟩ := Finset.mem_Ico.mp hb
        obtain ⟨hk01, hk02⟩ := Finset.mem_Ico.mp hk0mem
        rcases Nat.lt_or_ge b k0 with hlt | hge
        · exact absurd (hbj.trans hk0.symm)
            (Nat.ne_of_lt (hinc i hi k0 hk02 b hlt hb1))
        · exact absurd (hk0.trans hbj.symm)
            (Nat.ne_of_lt (hinc i hi b hb2 k0
              (Nat.lt_of_le_of_ne hge (Ne.symm hne)) hk01))
      · intro hk0no
        exact absurd hk0mem hk0no
    have hk0len : k0 < A.data.length := by
      obtain ⟨-, hk02⟩ := Finset.mem_Ico.mp hk0mem
      have : A.indptr.getD (i + 1) 0 ≤ A.indptr.getD A.nrows 0 :=
        chain_mono (fun r => A.indptr.getD r 0) A.nrows hmono (i + 1) A.nrows hi
          (Nat.le_refl _)
      omega
    rw [hentry]
    have hgd : A.data.getD k0 0 = A.data[k0] := List.getD_eq_getElem A.data 0 hk0len
    rw [hgd]
    exact hd _ (List.getElem_mem hk0len)

lemma scaled_eq_entry_mul_idf (A : CSR ℝ) (i j : ℕ) (hj : j < A.ncols) :
    scaled A i j = A.entry i j * idf A j := by
  rw [scaled]
  have : ∀ k ∈ Finset.range A.ncols,
      A.entry i k * idf_diag A k j = if k = j then A.entry i k * idf A k else 0 := by
    intro k _
    rw [idf_diag]
    by_cases hkj : k = j
    · rw [if_pos hkj, if_pos hkj]
    · rw [if_neg hkj, if_neg hkj, mul_zero]
  rw [Finset.sum_congr rfl this, Finset.sum_ite_eq' (Finset.range A.ncols) j
    (fun k => A.entry i k * idf A k), if_pos (Finset.mem_range.mpr hj)]

lemma df_le_nrows (A : CSR ℝ) (hc : A.Canonical) (j : ℕ) : df A j ≤ A.nrows := by
  rw [df_eq_card_rows A hc j]
  exact (Finset.card_filter_le (Finset.range A.nrows)
    (fun i => rowHasCol A i j)).trans (Finset.card_range A.nrows).le

lemma idf_pos (A : CSR ℝ) (hc : A.Canonical) (j : ℕ) : 0 < idf A j := by
  have hdf : (df A j : ℝ) ≤ (A.nrows : ℝ) := Nat.cast_le.mpr (df_le_nrows A hc j)
  have h1 : (1 : ℝ) ≤ ((A.nrows : ℝ) + 1) / ((df A j : ℝ) + 1) := by
    rw [le_div_iff₀ (by positivity)]
    linarith
  have hlog := Real.log_nonneg h1
  rw [idf]
  linarith

/-- C4: `tfidf_transformer` computes `df[j]` as the number of rows with a
nonzero entry in column `j` (for a canonical counts matrix the stored
entries of column `j` are exactly the rows whose dense entry there is
nonzero), and `X * idf_diag` scales each entry of column `j` by
`idf[j] = ln((n_samples + 1) / (df[j] + 1)) + 1` — all before the row
normalization step. -/
theorem tfidf_df_and_scaling (A : CSR ℝ) (hc : A.Canonical)
    (hd : ∀ v ∈ A.data, v ≠ 0) (i j : ℕ) (hi : i < A.nrows)
    (hj : j < A.ncols) :
    df A j = ((Finset.range A.nrows).filter (fun r => rowHasCol A r j)).card ∧
      (∀ r, r < A.nrows → (rowHasCol A r j ↔ A.entry r j ≠ 0)) ∧
      scaled A i j =
        A.entry i j *
          (Real.log (((A.nrows : ℝ) + 1) / ((df A j : ℝ) + 1)) + 1) :=
  ⟨df_eq_card_rows A hc j,
   fun r hr => (entry_ne_zero_iff A hc hd r j hr).symm,
   by rw [scaled_eq_entry_mul_idf A i j hj]; rfl⟩

/-- Concrete canonical counts matrix used by witnesses:
rows `[1, 2]` and `[0, 3]` (2 × 2, stored entries all nonzero). -/
noncomputable def Wcsr : CSR ℝ :=
  { data := [1, 2, 3], indices := [0, 1, 1], indptr := [0, 2, 3], ncols := 2 }

lemma Wcsr_canonical : Wcsr.Canonical := by
  refine ⟨rfl, rfl, ?_, rfl, rfl, ?_, ?_⟩ <;> decide

lemma Wcsr_data_ne_zero : ∀ v ∈ Wcsr.data, v ≠ 0 := by
  intro v hv
  rw [Wcsr] at hv
  simp only [List.mem_cons, List.not_mem_nil, or_false] at hv
  rcases hv with h | h | h <;> rw [h] <;> norm_num

theorem tfidf_df_and_scaling_witness :
    df Wcsr 1 =
        ((Finset.range Wcsr.nrows).filter (fun r => rowHasCol Wcsr r 1)).card ∧
      (∀ r, r < Wcsr.nrows → (rowHasCol Wcsr r 1 ↔ Wcsr.entry r 1 ≠ 0)) ∧
      scaled Wcsr 0 1 =
        Wcsr.entry 0 1 *
          (Real.log (((Wcsr.nrows : ℝ) + 1) / ((df Wcsr 1 : ℝ) + 1)) + 1) :=
  tfidf_df_and_scaling Wcsr Wcsr_canonical Wcsr_data_ne_zero 0 1
    (by decide) (by decide)

/-- Counts matrix with an all-zero second row: row 0 stores the single
value 1 in column 0, row 1 stores nothing (`indptr = [0, 1, 1]`). -/
noncomputable def Zcsr : CSR ℝ :=
  { data := [1], indices := [0], indptr := [0, 1, 1], ncols := 1 }

/-- C5 counterexample: the claim says the division by the row norm is
skipped for zero-norm rows, so an all-zero input row stays all-zero.  On
the code the division is unconditional: row 1 of `Zcsr` is all-zero, its
idf-scaled norm is 0, and entry (1, 0) of the transformer output is the
IEEE quotient `0.0 / 0.0` — NaN (`none`), not the zero the claim
requires. -/
theorem tfidf_zero_row_gives_nan :
    Zcsr.entry 1 0 = 0 ∧ tfidf_transformer Zcsr 1 0 = none := by
  have hz : Zcsr.entry 1 0 = 0 := by simp [CSR.entry, Zcsr]
  have hsc : ∀ j, scaled Zcsr 1 j = 0 := by
    intro j
    rw [scaled]
    have hone : Zcsr.ncols = 1 := rfl
    rw [hone, Finset.sum_range_one, hz, zero_mul]
  have hnorm : rowNorm Zcsr 1 = 0 := by
    rw [rowNorm]
    have hone : Zcsr.ncols = 1 := rfl
    rw [hone, Finset.sum_range_one, hsc 0]
    simp
  exact ⟨hz, by rw [tfidf_transformer, if_pos hnorm]⟩

/-- C5 amended: in `tfidf_transformer` the division by the row norm is
applied unconditionally.  A row whose dense entries are all zero has row
norm 0 and every entry of the output row is NaN (`none`) — not an
all-zero row.  A row with a nonzero entry has nonzero norm (the idf
factors are strictly positive) and each of its entries is divided by that
norm. -/
theorem tfidf_rownorm_division (A : CSR ℝ) (hc : A.Canonical) (i : ℕ) :
    ((∀ j, j < A.ncols → A.entry i j = 0) →
        rowNorm A i = 0 ∧ ∀ j, tfidf_transformer A i j = none) ∧
      (∀ j0, j0 < A.ncols → A.entry i j0 ≠ 0 →
        rowNorm A i ≠ 0 ∧
          ∀ j, tfidf_transformer A i j =
            some (scaled A i j / rowNorm A i)) := by
  constructor
  · intro hz
    have hnorm : rowNorm A i = 0 := by
      rw [rowNorm, Finset.sum_eq_zero, Real.sqrt_zero]
      intro j hj
      rw [scaled_eq_entry_mul_idf A i j (Finset.mem_range.mp hj),
        hz j (Finset.mem_range.mp hj), zero_mul]
      exact zero_pow two_ne_zero
    exact ⟨hnorm, fun j => by rw [tfidf_transformer, if_pos hnorm]⟩
  · intro j0 hj0 hne
    have hidf := idf_pos A hc j0
    have hsc : scaled A i j0 ≠ 0 := by
      rw [scaled_eq_entry_mul_idf A i j0 hj0]
      exact mul_ne_zero hne (ne_of_gt hidf)
    have hsum : 0 < ∑ j ∈ Finset.range A.ncols, scaled A i j ^ 2 := by
      refine Finset.sum_pos' (fun j _ => sq_nonneg _)
        ⟨j0, Finset.mem_range.mpr hj0, ?_⟩
      exact lt_of_le_of_ne (sq_nonneg _) (Ne.symm (pow_ne_zero 2 hsc))
    have hnorm : rowNorm A i ≠ 0 := by
      rw [rowNorm]
      exact ne_of_gt (Real.sqrt_pos.mpr hsum)
    exact ⟨hnorm, fun j => by rw [tfidf_transformer, if_neg hnorm]⟩

theorem tfidf_rownorm_division_witness :
    ((∀ j, j < Wcsr.ncols → Wcsr.entry 0 j = 0) →
        rowNorm Wcsr 0 = 0 ∧ ∀ j, tfidf_transformer Wcsr 0 j = none) ∧
      (∀ j0, j0 < Wcsr.ncols → Wcsr.entry 0 j0 ≠ 0 →
        rowNorm Wcsr 0 ≠ 0 ∧
          ∀ j, tfidf_transformer Wcsr 0 j =
            some (scaled Wcsr 0 j / rowNorm Wcsr 0)) :=
  tfidf_rownorm_division Wcsr Wcsr_canonical 0

/-- C2: the claim says entry (i, j) of `cosine_similarity` is the dot
product of row i of X and row j of Y divided by the product of the two
row norms, with diagonal 1.0 for nonzero rows in the self-similarity
case.  It fails on the code: `norm(X)` without an `axis` argument is the
scalar Frobenius norm of the whole matrix.  On `X = [[1], [1]]` (two
identical nonzero rows) the code yields `similarity[0][0] = 1/2`, not the
1.0 required by the claim and by the function's own docstring. -/
theorem cosine_similarity_divides_by_frobenius :
    cosine_similarity [[1], [1]] none 0 0 = 1 / 2 ∧ ((1 : ℝ) / 2 ≠ 1) := by
  constructor
  · have h2 : Real.sqrt 2 * Real.sqrt 2 = 2 := Real.mul_self_sqrt (by norm_num)
    have hfrob : frobNorm [[(1 : ℝ)], [1]] = Real.sqrt 2 := by
      rw [frobNorm]
      norm_num [mentry, Finset.sum_range_succ, Finset.sum_range_one]
    have hne : Real.sqrt 2 ≠ 0 := by positivity
    simp only [cosine_similarity, hfrob, mentry]
    norm_num [Finset.sum_range_one]
    rw [← mul_inv, h2]
    norm_num
  · norm_num

/-- The fitted state read by `predict`: the ordered document list
`file_names_`, the dense similarity matrix `similarity_matrix_` (row
major) and the configured `n_examples`.  The claims about `predict`
quantify over every fitted model, so the state is taken as arbitrary
here; scores are modelled as rationals, since `predict` only ever
compares scores and any linearly ordered score type captures the float
comparisons. -/
structure Fitted where
  file_names : List String
  similarity_matrix : List (List ℚ)
  n_examples : ℕ

/-- One insertion step of a stable descending sort: the new element goes
in front of the first element whose score is less than or equal to its
own, i.e. after every strictly greater score and before any equal
score. -/
def insD (x : ℕ × ℚ) : List (ℕ × ℚ) → List (ℕ × ℚ)
  | [] => [x]
  | y :: ys => if y.2 ≤ x.2 then x :: y :: ys else y :: insD x ys

/-- Python `sorted(..., key=lambda x: x[1], reverse=True)`.  Python's `sorted`
is documented to be a stable sort (also under `reverse=True`), and every
stable sort with the same comparison returns the same list, so CPython's
Timsort is modelled extensionally by stable insertion sort: each element
is inserted into the sorted suffix, landing before the elements of equal
score that follow it in the original list. -/
def pysortedDesc : List (ℕ × ℚ) → List (ℕ × ℚ)
  | [] => []
  | x :: xs => insD x (pysortedDesc xs)

/-- Score descending, ties broken by ascending original position. -/
def RelLex (a b : ℕ × ℚ) : Prop :=
  b.2 < a.2 ∨ (a.2 = b.2 ∧ a.1 < b.1)

/-- The pairs `list(enumerate(self.similarity_matrix_[item_id]))` where
`item_id = self.file_names_.index(file_name)`. -/
def similarItems (m : Fitted) (file_name : String) : List (ℕ × ℚ) :=
  (m.similarity_matrix.getD (m.file_names.indexOf file_name) []).enum

/-- The list `sorted(similar_items, key=lambda x: x[1], reverse=True)`. -/
def sortedItems (m : Fitted) (file_name : String) : List (ℕ × ℚ) :=
  pysortedDesc (similarItems m file_name)

/-- The slice `[index for index, _ in sorted_items[1 : self.n_examples + 1]]`: drop
the top-ranked pair, keep the next `n_examples` positions. -/
def topKItems (m : Fitted) (file_name : String) : List ℕ :=
  (((sortedItems m file_name).drop 1).take m.n_examples).map Prod.fst

/-- Model of `ExampleRecommender.predict`: the file names at the top-k
positions. -/
def predict (m : Fitted) (file_name : String) : List String :=
  (topKItems m file_name).map (fun index => m.file_names.getD index "")

lemma insD_perm (x : ℕ × ℚ) (l : List (ℕ × ℚ)) : (insD x l).Perm (x :: l) := by
  induction l with
  | nil => exact List.Perm.refl _
  | cons y ys ih =>
    show (if y.2 ≤ x.2 then x :: y :: ys else y :: insD x ys).Perm (x :: y :: ys)
    by_cases h : y.2 ≤ x.2
    · rw [if_pos h]
    · rw [if_neg h]
      exact (ih.cons y).trans (List.Perm.swap x y ys)

lemma pysortedDesc_perm (l : List (ℕ × ℚ)) : (pysortedDesc l).Perm l := by
  induction l with
  | nil => exact List.Perm.refl _
  | cons x xs ih =>
    exact (insD_perm x (pysortedDesc xs)).trans (ih.cons x)

lemma insD_pairwise (x : ℕ × ℚ) (l : List (ℕ × ℚ)) (hl : l.Pairwise RelLex)
    (hx : ∀ y ∈ l, x.1 < y.1) : (insD x l).Pairwise RelLex := by
  induction l with
  | nil => simp [insD, RelLex]
  | cons y ys ih =>
    rcases List.pairwise_cons.mp hl with ⟨hy, hys⟩
    show (if y.2 ≤ x.2 then x :: y :: ys else y :: insD x ys).Pairwise RelLex
    by_cases h : y.2 ≤ x.2
    · rw [if_pos h]
      refine List.pairwise_cons.mpr ⟨?_, hl⟩
      intro z hz
      rcases List.mem_cons.mp hz with rfl | hzys
      · rcases lt_or_eq_of_le h with hlt | heq
        · exact Or.inl hlt
        · exact Or.inr ⟨heq.symm, hx z (List.mem_cons_self z ys)⟩
      · have hz2 : z.2 ≤ y.2 := by
          rcases hy z hzys with h1 | ⟨h1, -⟩
          · exact le_of_lt h1
          · exact le_of_eq h1.symm
        rcases lt_or_eq_of_le (hz2.trans h) with hlt | heq
        · exact Or.inl hlt
        · exact Or.inr ⟨heq.symm, hx z (List.mem_cons_of_mem y hzys)⟩
    · rw [if_neg h]
      have hx2 : x.2 < y.2 := lt_of_not_le h
      refine List.pairwise_cons.mpr
        ⟨?_, ih hys (fun z hz => hx z (List.mem_cons_of_mem y hz))⟩
      intro z hz
      rcases List.mem_cons.mp ((insD_perm x ys).mem_iff.mp hz) with rfl | hzys
      · exact Or.inl hx2
      · exact hy z hzys

lemma pysortedDesc_pairwise (l : List (ℕ × ℚ))
    (h : l.Pairwise (fun a b => a.1 < b.1)) :
    (pysortedDesc l).Pairwise RelLex := by
  induction l with
  | nil => simp [pysortedDesc]
  | cons x xs ih =>
    rcases List.pairwise_cons.mp h with ⟨hx, hxs⟩
    exact insD_pairwise x (pysortedDesc xs) (ih hxs)
      (fun y hy => hx y ((pysortedDesc_perm xs).mem_iff.mp hy))

lemma enum_pairwise_fst (l : List ℚ) :
    l.enum.Pairwise (fun a b : ℕ × ℚ => a.1 < b.1) := by
  rw [List.pairwise_iff_getElem]
  intro i j hi hj hij
  rw [List.getElem_enum, List.getElem_enum]
  simpa using hij

lemma mem_enum_bounds (l : List ℚ) (p : ℕ × ℚ) (hp : p ∈ l.enum) :
    p.1 < l.length ∧ l.getD p.1 0 = p.2 := by
  obtain ⟨i, hi, hgi⟩ := List.mem_iff_getElem.mp hp
  have hlen : i < l.length := by simpa using hi
  rw [List.getElem_enum] at hgi
  rw [← hgi]
  exact ⟨hlen, List.getD_eq_getElem l 0 hlen⟩

lemma self_mem_enum (l : List ℚ) (k : ℕ) (hk : k < l.length) :
    (k, l.getD k 0) ∈ l.enum := by
  rw [List.getD_eq_getElem l 0 hk]
  exact List.mem_iff_getElem.mpr ⟨k, by simpa using hk, List.getElem_enum l k _⟩

/-- C6: the list `sorted_items` built by `predict` is a permutation of
the enumerated (position, score) pairs of the query's similarity row,
ordered by score descending; whenever two pairs have equal scores the one
with the smaller original corpus position comes first (`RelLex`). -/
theorem predict_sorts_by_score_then_position (m : Fitted) (file_name : String) :
    (sortedItems m file_name).Perm (similarItems m file_name) ∧
      (sortedItems m file_name).Pairwise RelLex :=
  ⟨pysortedDesc_perm _, pysortedDesc_pairwise _ (enum_pairwise_fst _)⟩

/-- Fitted state in which documents "a" and "b" have all-equal scores. -/
def MCE : Fitted :=
  { file_names := ["a", "b"],
    similarity_matrix := [[1, 1], [1, 1]],
    n_examples := 1 }

/-- C7 counterexample: the claim says `predict(d)` never contains `d`
itself.  On the fitted state `MCE` every score is equal, so the stable
descending sort of row 1 is `[(0, 1), (1, 1)]`; the code only drops the
first (top-ranked) pair, and `predict "b"` returns `["b"]` — the query
document itself. -/
theorem predict_returns_query_itself : "b" ∈ predict MCE "b" := by decide

/-- C7 amended: `predict` removes only the top-ranked pair of the stable
descending sort, so the query position is excluded whenever it is that
top pair — in particular whenever the query's self-score is strictly
greater than every other score in its row.  (When another position ties
with the maximal score, as in the counterexample, the query itself can be
returned.) -/
theorem predict_excludes_strictly_top_query (m : Fitted) (file_name : String)
    (hmem : file_name ∈ m.file_names)
    (hlen : (m.similarity_matrix.getD (m.file_names.indexOf file_name) []).length
      = m.file_names.length)
    (hmax : ∀ k, k < m.file_names.length → k ≠ m.file_names.indexOf file_name →
      (m.similarity_matrix.getD (m.file_names.indexOf file_name) []).getD k 0 <
        (m.similarity_matrix.getD (m.file_names.indexOf file_name) []).getD
          (m.file_names.indexOf file_name) 0) :
    m.file_names.indexOf file_name ∉ topKItems m file_name := by
  set iid := m.file_names.indexOf file_name with hiid
  set row := m.similarity_matrix.getD iid [] with hrowdef
  have hiidlt : iid < m.file_names.length := List.indexOf_lt_length.mpr hmem
  have hiidrow : iid < row.length := by rw [hlen]; exact hiidlt
  have hperm : (sortedItems m file_name).Perm row.enum := pysortedDesc_perm _
  have hpw : (sortedItems m file_name).Pairwise RelLex :=
    pysortedDesc_pairwise _ (enum_pairwise_fst _)
  have hslen : (sortedItems m file_name).length = row.length := by
    rw [hperm.length_eq]; simp
  obtain ⟨h, t, hst⟩ : ∃ h t, sortedItems m file_name = h :: t := by
    cases hs : sortedItems m file_name with
    | nil =>
      have h0 : row.length = 0 := by rw [hs] at hslen; simpa using hslen.symm
      omega
    | cons a l => exact ⟨a, l, rfl⟩
  have hhead : h.1 = iid := by
    by_contra hne
    have hmemh : h ∈ row.enum := hperm.mem_iff.mp (hst ▸ List.mem_cons_self h t)
    obtain ⟨hh1, hh2⟩ := mem_enum_bounds row h hmemh
    have hhlt : h.2 < row.getD iid 0 := by
      have := hmax h.1 (by rw [← hlen]; exact hh1) hne
      rw [hh2] at this
      exact this
    have hqmem : (iid, row.getD iid 0) ∈ sortedItems m file_name :=
      hperm.mem_iff.mpr (self_mem_enum row iid hiidrow)
    rw [hst] at hqmem
    rcases List.mem_cons.mp hqmem with heq | htmem
    · exact hne (by rw [← heq])
    · have hrel := (List.pairwise_cons.mp (hst ▸ hpw)).1 _ htmem
      rcases hrel with hlt | ⟨heq2, -⟩
      · exact absurd (hlt.trans hhlt) (lt_irrefl _)
      · rw [heq2] at hhlt
        exact absurd hhlt (lt_irrefl _)
  have hnodup : ((sortedItems m file_name).map Prod.fst).Nodup := by
    have hp : ((sortedItems m file_name).map Prod.fst).Perm
        (row.enum.map Prod.fst) := hperm.map _
    rw [List.enum_map_fst] at hp
    exact hp.nodup_iff.mpr (List.nodup_range _)
  intro hcontra
  have hmt : iid ∈ t.map Prod.fst := by
    rw [topKItems, hst] at hcontra
    simp only [List.drop_succ_cons, List.drop_zero] at hcontra
    obtain ⟨p, hp, hp2⟩ := List.mem_map.mp hcontra
    exact List.mem_map.mpr ⟨p, List.mem_of_mem_take hp, hp2⟩
  rw [hst] at hnodup
  simp only [List.map_cons, List.nodup_cons] at hnodup
  exact hnodup.1 (by rw [hhead]; exact hmt)

/-- Fitted state where "b" strictly dominates its own row. -/
def MW : Fitted :=
  { file_names := ["a", "b"],
    similarity_matrix := [[3, 1], [1, 2]],
    n_examples := 5 }

theorem predict_excludes_strictly_top_query_witness :
    MW.file_names.indexOf "b" ∉ topKItems MW "b" :=
  predict_excludes_strictly_top_query MW "b" (by decide) (by decide) (by decide)

/-- C8: for a well-formed fitted state (the query's similarity row has
one score per fitted document) and a fitted document, `predict` returns
exactly `min (n_examples, n_documents - 1)` identifiers. -/
theorem predict_length_eq_min (m : Fitted) (file_name : String)
    (hmem : file_name ∈ m.file_names)
    (hlen : (m.similarity_matrix.getD (m.file_names.indexOf file_name) []).length
      = m.file_names.length) :
    (predict m file_name).length = min m.n_examples (m.file_names.length - 1) := by
  have hslen : (sortedItems m file_name).length = m.file_names.length := by
    rw [sortedItems, (pysortedDesc_perm _).length_eq, similarItems,
      List.enum_length, hlen]
  rw [predict, topKItems, List.length_map, List.length_map, List.length_take,
    List.length_drop, hslen]

/-- Well-formed three-document fitted state for the C8 witness. -/
def MW8 : Fitted :=
  { file_names := ["a", "b", "c"],
    similarity_matrix := [[1, 0, 0], [0, 1, 0], [0, 0, 1]],
    n_examples := 5 }

theorem predict_length_eq_min_witness :
    (predict MW8 "a").length = min MW8.n_examples (MW8.file_names.length - 1) :=
  predict_length_eq_min MW8 "a" (by decide) (by decide)

/-- The Python exceptions `fit` can raise before committing any state. -/
inductive PyErr where
  | valueError (msg : String)
  | nameError (msg : String)
  | unboundLocalError (msg : String)
deriving DecidableEq

/-- A document handed to `fit`: its identifier and the text returned by
`Path(fname).read_text()` (text acquisition is an external collaborator,
so the text is part of the input here). -/
structure PyFile where
  name : String
  text : String

/-- An `ExampleRecommender` instance: the constructor configuration plus
the two attributes assigned by a successful `fit` (absent before the
first successful call). -/
structure Recommender where
  n_examples : Int
  tokenizer : String
  file_names_ : Option (List String)
  similarity_matrix_ : Option (ℕ → ℕ → Option ℝ)

/-- The set `known_tokenizers` of supported tokenizer modes, raw and backrefs. -/
def knownTokenizers : List String := ["raw", "backrefs"]

/-- The local variable `counts_matrix` of `fit`.  On the "raw" branch it
is assigned `dict_vectorizer([token_freqs(...) for fname in
file_names])`, where each `token_freqs` call raises `NameError` (see
`token_freqs`).  On the "backrefs" branch the assignment is commented
out, so the later read of `counts_matrix` raises `UnboundLocalError`. -/
def countsMatrixOf (tokenizer : String) (files : List PyFile) :
    Except PyErr (CSR ℝ) :=
  if tokenizer = "raw" then
    match files.mapM (fun f => token_freqs f.text) with
    | Except.error msg => Except.error (PyErr.nameError msg)
    | Except.ok freqs =>
      Except.ok (dict_vectorizer
        (freqs.map (List.map (fun p => (p.1, (p.2 : ℝ))))))
  else
    Except.error (PyErr.unboundLocalError
      "local variable counts_matrix referenced before assignment")

/-- NaN-propagating addition on `Option ℝ` (`none` is NaN). -/
def oadd : Option ℝ → Option ℝ → Option ℝ
  | some a, some b => some (a + b)
  | _, _ => none

/-- NaN-propagating multiplication on `Option ℝ`. -/
def omul : Option ℝ → Option ℝ → Option ℝ
  | some a, some b => some (a * b)
  | _, _ => none

/-- IEEE division on `Option ℝ`: NaN propagates, and a zero divisor
yields a non-finite result, conflated with NaN here (the only zero
divisors reachable from `fit` arise from all-zero inputs). -/
noncomputable def odiv : Option ℝ → Option ℝ → Option ℝ
  | some a, some b => if b = 0 then none else some (a / b)
  | _, _ => none

/-- NaN-propagating finite sum. -/
def osum (n : ℕ) (f : ℕ → Option ℝ) : Option ℝ :=
  (List.range n).foldr (fun k acc => oadd (f k) acc) (some 0)

/-- Model of `cosine_similarity` applied to the NaN-aware TF-IDF matrix inside
`fit`: `X / norm(X)` with the scalar Frobenius norm, then the Gram
product; NaN anywhere in the matrix contaminates the norm and hence the
output, as in IEEE arithmetic. -/
noncomputable def cosineNaN (M : ℕ → ℕ → Option ℝ) (nr nc : ℕ)
    (i j : ℕ) : Option ℝ :=
  let nrm := Option.map Real.sqrt
    (osum nr (fun r => osum nc (fun c => omul (M r c) (M r c))))
  osum nc (fun k => omul (odiv (M i k) nrm) (odiv (M j k) nrm))

/-- Model of `ExampleRecommender.fit`, as a transition on the instance: the
configuration checks run first (unknown tokenizer, then non-positive
`n_examples` — the `isinstance(n_examples, numbers.Integral)` test cannot
fail in this model since `n_examples` is an `Int`); only when the whole
pipeline succeeds are `similarity_matrix_` and `file_names_` assigned.
On any raised error the instance is returned unchanged together with the
exception. -/
noncomputable def fit (self : Recommender) (files : List PyFile) :
    Recommender × Option PyErr :=
  if self.tokenizer ∈ knownTokenizers then
    if self.n_examples < 1 then
      (self, some (PyErr.valueError "n_examples must be strictly positive"))
    else
      match countsMatrixOf self.tokenizer files with
      | Except.error e => (self, some e)
      | Except.ok counts_matrix =>
        ({ self with
            similarity_matrix_ := some (cosineNaN (tfidf_transformer counts_matrix)
              counts_matrix.nrows counts_matrix.ncols),
            file_names_ := some (files.map PyFile.name) }, none)
  else
    (self, some (PyErr.valueError
      ("Unknown tokenizer " ++ self.tokenizer)))

/-- C9: `fit` raises `ValueError` (the InvalidConfiguration error) when
the tokenizer is unknown or `n_examples < 1`, before doing any other
work: the instance — in particular any previously fitted `file_names_`
and `similarity_matrix_` — is returned unchanged. -/
theorem fit_invalid_configuration (self : Recommender) (files : List PyFile)
    (h : self.tokenizer ∉ knownTokenizers ∨ self.n_examples < 1) :
    (fit self files).1 = self ∧
      ∃ msg, (fit self files).2 = some (PyErr.valueError msg) := by
  rcases h with h | h
  · rw [fit, if_neg h]
    exact ⟨rfl, _, rfl⟩
  · by_cases hk : self.tokenizer ∈ knownTokenizers
    · rw [fit, if_pos hk, if_pos h]
      exact ⟨rfl, _, rfl⟩
    · rw [fit, if_neg hk]
      exact ⟨rfl, _, rfl⟩

/-- A previously fitted instance with an invalid `n_examples = 0`. -/
noncomputable def selfInvalid : Recommender :=
  { n_examples := 0, tokenizer := "raw",
    file_names_ := some ["old.py"], similarity_matrix_ := none }

theorem fit_invalid_configuration_witness :
    (fit selfInvalid [⟨"a.py", "cat dog"⟩]).1 = selfInvalid ∧
      ∃ msg, (fit selfInvalid [⟨"a.py", "cat dog"⟩]).2 =
        some (PyErr.valueError msg) :=
  fit_invalid_configuration selfInvalid [⟨"a.py", "cat dog"⟩]
    (Or.inr (by norm_num [selfInvalid]))

/-- C10: with `tokenizer = "backrefs"` and a valid `n_examples`, `fit`
passes the configuration checks but always fails before producing a
similarity matrix: no counts matrix is ever constructed on that branch,
so the read at `tfidf_transformer(counts_matrix)` raises
`UnboundLocalError`, and the previously fitted state is left unchanged
for every input file list. -/
theorem fit_backrefs_always_fails (self : Recommender) (files : List PyFile)
    (htok : self.tokenizer = "backrefs") (hn : 1 ≤ self.n_examples) :
    (fit self files).1 = self ∧
      (fit self files).2 = some (PyErr.unboundLocalError
        "local variable counts_matrix referenced before assignment") := by
  have hk : self.tokenizer ∈ knownTokenizers := by
    rw [htok]; exact List.mem_cons_of_mem _ (List.mem_cons_self _ _)
  have hlt : ¬ self.n_examples < 1 := not_lt.mpr hn
  rw [fit, if_pos hk, if_neg hlt]
  have hcm : countsMatrixOf self.tokenizer files =
      Except.error (PyErr.unboundLocalError
        "local variable counts_matrix referenced before assignment") := by
    rw [countsMatrixOf, if_neg]
    rw [htok]
    intro hraw
    exact absurd hraw (by decide)
  rw [hcm]
  exact ⟨rfl, rfl⟩

/-- A previously fitted instance configured with the "backrefs"
tokenizer. -/
noncomputable def selfBackrefs : Recommender :=
  { n_examples := 5, tokenizer := "backrefs",
    file_names_ := some ["old.py"], similarity_matrix_ := none }

theorem fit_backrefs_always_fails_witness :
    (fit selfBackrefs [⟨"a.py", "cat dog"⟩]).1 = selfBackrefs ∧
      (fit selfBackrefs [⟨"a.py", "cat dog"⟩]).2 =
        some (PyErr.unboundLocalError
          "local variable counts_matrix referenced before assignment") :=
  fit_backrefs_always_fails selfBackrefs [⟨"a.py", "cat dog"⟩] rfl
    (by norm_num [selfBackrefs])

end ExampleRecommender
